import Mathlib

/-!
# Verification of the jwalk parallel directory walker

Shallow embedding of `src/lib.rs` (the builder `WalkDir`, its options, the
per-directory read closure handed to `core::walk`, `Sort::perform_sort`,
`Clone for WalkDirOptions`, and `is_hidden`), together with a model of the
walk engine in `core.rs`, which is not part of the sources and is therefore
modelled from the specification (§4.D, §4.E).

Conventions of the embedding:
* Rust `usize` values are modelled as `Nat` (no arithmetic in the sources can
  overflow: depths only ever grow by `+ 1` from `0`).
* `std::io::Error` is modelled as an opaque error code (`IoError := Nat`).
* `OsStr` is modelled by its byte content, marking whether it is valid UTF-8
  (`OsStr.utf8` carries the decoded string, `OsStr.bytes` a non-UTF-8 byte
  sequence); `to_str` and byte-wise `cmp` follow the Rust std semantics.
* `Vec<T>` is `List T`, `Result<T>`/`Result<T, Error>` is `Except IoError T`,
  `Option<T>` is `Option T`.
* Rust's stable `sort_by(cmp)` is modelled by `List.mergeSort` with the
  boolean order `cmp a b ≠ Ordering.gt` (merge sort is stable and sorts
  ascending with respect to the comparator, exactly as `sort_by`).
* The user callback `Fn(&mut Vec<Result<DirEntry>>)` is modelled as an
  arbitrary function `List R → List R`: the Rust type places no restriction
  on how the callback rewrites the vector.
-/

namespace Jwalk

/-- Opaque model of `std::io::Error` values (an OS error code). -/
abbrev IoError := Nat

/-- Model of `std::fs::FileType` as reported by `DirEntry::file_type`
(`is_dir` is true exactly for `dir`; symlinks are not followed). -/
inductive FileType where
  | dir
  | file
  | symlink
deriving DecidableEq, Repr

/-- `FileType::is_dir`. -/
def FileType.is_dir : FileType → Bool
  | .dir => true
  | _ => false

/-- Model of `std::fs::Metadata`: the three timestamps the `Sort` variants
refer to, as abstract clock values. -/
structure Metadata where
  accessed : Nat
  created : Nat
  modified : Nat
deriving DecidableEq, Repr

/-- Byte-wise lexicographic comparison of byte strings: the order used by
Rust's `Ord for OsStr` (comparison of the underlying byte slices). -/
def bytesCmp : List Nat → List Nat → Ordering
  | [], [] => .eq
  | [], _ :: _ => .lt
  | _ :: _, [] => .gt
  | a :: as, b :: bs =>
    if a < b then .lt else if b < a then .gt else bytesCmp as bs

/-- UTF-8 encoding of a single character (the byte content a Rust `String`
stores for it). -/
def charUtf8 (c : Char) : List Nat :=
  let n := c.toNat
  if n < 0x80 then [n]
  else if n < 0x800 then
    [0xC0 ||| (n >>> 6), 0x80 ||| (n &&& 0x3F)]
  else if n < 0x10000 then
    [0xE0 ||| (n >>> 12), 0x80 ||| ((n >>> 6) &&& 0x3F), 0x80 ||| (n &&& 0x3F)]
  else
    [0xF0 ||| (n >>> 18), 0x80 ||| ((n >>> 12) &&& 0x3F),
     0x80 ||| ((n >>> 6) &&& 0x3F), 0x80 ||| (n &&& 0x3F)]

/-- Model of `std::ffi::OsString`: either a valid-UTF-8 name (carrying its
decoded string) or a name that is not valid UTF-8 (carrying its raw bytes). -/
inductive OsStr where
  | utf8 (s : String)
  | bytes (bs : List Nat)
deriving DecidableEq, Repr

/-- `OsStr::to_str`: `Some` exactly when the name is valid UTF-8. -/
def OsStr.to_str : OsStr → Option String
  | .utf8 s => some s
  | .bytes _ => none

/-- The byte content of an `OsStr` (for UTF-8 names, the UTF-8 encoding). -/
def OsStr.toBytes : OsStr → List Nat
  | .utf8 s => s.data.flatMap charUtf8
  | .bytes bs => bs

/-- `Ord::cmp for OsStr`: byte-wise lexicographic comparison. -/
def OsStr.cmp (a b : OsStr) : Ordering :=
  bytesCmp a.toBytes b.toBytes

/-- Model of Rust `str::starts_with(".")`: true when the first character of
the string is `'.'`. -/
def startsWithDot (s : String) : Bool :=
  match s.data with
  | [] => false
  | c :: _ => c = '.'

/-- `fn is_hidden(file_name: &OsStr) -> bool` (src/lib.rs):
`file_name.to_str().map(|s| s.starts_with(".")).unwrap_or(false)`. -/
def is_hidden (file_name : OsStr) : Bool :=
  ((file_name.to_str).map (fun s => startsWithDot s)).getD false

/-- A filesystem path, as its list of components (`PathBuf::join` appends a
component). -/
abbrev Path := List OsStr

/-- `ReadDirSpec` (declared in the missing `core.rs`; spec §3: path, depth,
optional opaque state — `lib.rs` always constructs it as
`ReadDirSpec::new(path, depth, None)`). -/
structure ReadDirSpec where
  path : Path
  depth : Nat
  state : Option Unit
deriving DecidableEq, Repr

instance {ε α : Type} [DecidableEq ε] [DecidableEq α] : DecidableEq (Except ε α) := fun a b =>
  match a, b with
  | .ok a, .ok b => if h : a = b then .isTrue (by rw [h]) else .isFalse (by simp [h])
  | .ok _, .error _ => .isFalse (by simp)
  | .error _, .ok _ => .isFalse (by simp)
  | .error a, .error b => if h : a = b then .isTrue (by rw [h]) else .isFalse (by simp [h])

/-- `DirEntry` (declared in the missing `core.rs`; spec §3 lists its fields,
and `lib.rs` constructs it as `DirEntry::new(depth, file_name, file_type,
metadata, parent_spec, children_spec)`). -/
structure DirEntry where
  depth : Nat
  file_name : OsStr
  file_type : Except IoError FileType
  metadata : Option (Except IoError Metadata)
  parent_spec : Option ReadDirSpec
  children_spec : Option ReadDirSpec
deriving DecidableEq, Repr

/-- `pub enum Sort { Name, Access, Creation, Modification }` from src/lib.rs.
(`Sort` is a reserved word in Lean, hence the name `SortKey`.) -/
inductive SortKey where
  | Name
  | Access
  | Creation
  | Modification
deriving DecidableEq, Repr

/-- The comparator closure passed to `sort_by` in `Sort::perform_sort`
(src/lib.rs lines 269–274). Note that it never consults the `Sort` variant:
successes are compared by file name, a success sorts before an error, and two
errors compare equal. -/
def sortByCmp (a b : Except IoError DirEntry) : Ordering :=
  match a, b with
  | .ok a, .ok b => OsStr.cmp a.file_name b.file_name
  | .ok _, .error _ => Ordering.lt
  | .error _, .ok _ => Ordering.gt
  | .error _, .error _ => Ordering.eq

/-- `Sort::perform_sort` (src/lib.rs): a stable sort of the result vector by
`sortByCmp`. The `self` sort key is ignored by the source code — the body
only matches on the two compared elements. -/
def SortKey.perform_sort (_self : SortKey)
    (dir_entry_results : List (Except IoError DirEntry)) :
    List (Except IoError DirEntry) :=
  dir_entry_results.mergeSort fun a b => sortByCmp a b != Ordering.gt

/-- `struct WalkDirOptions` (src/lib.rs). The `process_entries` callback
`Fn(&mut Vec<Result<DirEntry>>)` is modelled as an arbitrary rewriting of the
result vector. -/
structure WalkDirOptions where
  sort : Option SortKey
  max_depth : Nat
  skip_hidden : Bool
  num_threads : Nat
  preload_metadata : Bool
  process_entries :
    Option (List (Except IoError DirEntry) → List (Except IoError DirEntry))

/-- `::std::usize::MAX` on a 64-bit target. -/
def USIZE_MAX : Nat := 2 ^ 64 - 1

/-- `pub struct WalkDir` (src/lib.rs). -/
structure WalkDir where
  root : Path
  options : WalkDirOptions

/-- `WalkDir::new` (src/lib.rs): default options. -/
def WalkDir.new (root : Path) : WalkDir :=
  { root := root
    options :=
      { sort := none
        max_depth := USIZE_MAX
        num_threads := 0
        skip_hidden := true
        preload_metadata := false
        process_entries := none } }

/-- `WalkDir::max_depth` (src/lib.rs): sets the depth cap, and when the cap
is `1` also forces `num_threads` to `1`. -/
def WalkDir.max_depth (self : WalkDir) (depth : Nat) : WalkDir :=
  let opts := { self.options with max_depth := depth }
  let opts := if depth = 1 then { opts with num_threads := 1 } else opts
  { self with options := opts }

/-- `WalkDir::sort` (src/lib.rs). -/
def WalkDir.sort (self : WalkDir) (sort : Option SortKey) : WalkDir :=
  { self with options := { self.options with sort := sort } }

/-- `WalkDir::num_threads` (src/lib.rs). -/
def WalkDir.num_threads (self : WalkDir) (n : Nat) : WalkDir :=
  { self with options := { self.options with num_threads := n } }

/-- `WalkDir::skip_hidden` (src/lib.rs). -/
def WalkDir.skip_hidden (self : WalkDir) (skip_hidden : Bool) : WalkDir :=
  { self with options := { self.options with skip_hidden := skip_hidden } }

/-- `WalkDir::preload_metadata` (src/lib.rs). -/
def WalkDir.preload_metadata (self : WalkDir) (preload_metadata : Bool) : WalkDir :=
  { self with options := { self.options with preload_metadata := preload_metadata } }

/-- `WalkDir::process_entries` (src/lib.rs). -/
def WalkDir.process_entries (self : WalkDir)
    (process_by : List (Except IoError DirEntry) → List (Except IoError DirEntry)) :
    WalkDir :=
  { self with options := { self.options with process_entries := some process_by } }

/-- `impl Clone for WalkDirOptions` (src/lib.rs lines 278–289), transcribed
field by field: the clone's `sort` is the literal `None`, every other field
is copied from `self`. -/
def WalkDirOptions.clone (self : WalkDirOptions) : WalkDirOptions :=
  { sort := none
    max_depth := self.max_depth
    num_threads := self.num_threads
    skip_hidden := self.skip_hidden
    preload_metadata := self.preload_metadata
    process_entries := self.process_entries }

/-! ## The host filesystem

The OS is an external collaborator (spec §1).  A node of the filesystem is
described by what `fs::read_dir` does on it: reading fails with an error
(`failDir`; this also covers regular files, where `read_dir` fails with
`ENOTDIR`), or it yields a finite listing.  Each listing item is either a
per-entry error of the `read_dir` iterator, or an entry carrying its file
name, the answers the OS gives to the `file_type` and `metadata` queries,
and the subtree reached through it. -/

mutual
inductive FsTree where
  | failDir (e : IoError)
  | dir (items : List RawItem)

inductive RawItem where
  | err (e : IoError)
  | entry (name : OsStr) (ftype : Except IoError FileType)
      (meta : Except IoError Metadata) (sub : FsTree)
end

/-- The `filter_map` stage of the closure passed to `core::walk`
(src/lib.rs lines 208–250): per-entry errors are kept, hidden names are
dropped when `skip_hidden` is set, metadata is attached only under
`preload_metadata`, and a `children_spec` at `depth = read_dir_spec.depth + 1`
is attached exactly when the reported file type is a directory and
`depth < max_depth`. -/
def dirEntryResultsRaw (opts : WalkDirOptions) (read_dir_spec : ReadDirSpec)
    (items : List RawItem) : List (Except IoError DirEntry) :=
  let depth := read_dir_spec.depth + 1
  items.filterMap fun item =>
    match item with
    | .err e => some (.error e)
    | .entry file_name file_type meta _sub =>
      if opts.skip_hidden && is_hidden file_name then none
      else
        let metadata := if opts.preload_metadata then some meta else none
        let children_spec :=
          match file_type with
          | .ok ft =>
            if ft.is_dir && decide (depth < opts.max_depth) then
              some ⟨read_dir_spec.path ++ [file_name], depth, none⟩
            else none
          | .error _ => none
        some (.ok
          { depth := depth
            file_name := file_name
            file_type := file_type
            metadata := metadata
            parent_spec := some read_dir_spec
            children_spec := children_spec })

/-- The successful branch of the closure (src/lib.rs lines 208–260): collect
the filtered entries, sort them when a sort is configured, then hand the
vector to `process_entries` when one is configured. -/
def dirEntryResults (opts : WalkDirOptions) (read_dir_spec : ReadDirSpec)
    (items : List RawItem) : List (Except IoError DirEntry) :=
  let rs := dirEntryResultsRaw opts read_dir_spec items
  let rs :=
    match opts.sort with
    | some s => s.perform_sort rs
    | none => rs
  match opts.process_entries with
  | some f => f rs
  | none => rs

/-- The whole closure passed to `core::walk` (src/lib.rs lines 207–261): if
the initial `fs::read_dir` fails, the `?` operator returns that error before
any filtering, sorting or user transform runs; otherwise the processed
vector becomes the directory's `ReadDir` result. -/
def readDirResult (opts : WalkDirOptions) (read_dir_spec : ReadDirSpec)
    (t : FsTree) : Except IoError (List (Except IoError DirEntry)) :=
  match t with
  | .failDir e => .error e
  | .dir items => .ok (dirEntryResults opts read_dir_spec items)

/-- Resolve one path component in a directory listing: the subtree of the
first entry with the given file name. -/
def lookupChild : List RawItem → OsStr → Option FsTree
  | [], _ => none
  | .err _ :: rest, n => lookupChild rest n
  | .entry name _ _ sub :: rest, n =>
    if name = n then some sub else lookupChild rest n

theorem sizeOf_lookupChild {items : List RawItem} {n : OsStr} {sub : FsTree}
    (h : lookupChild items n = some sub) : sizeOf sub < sizeOf items := by
  induction items with
  | nil => simp [lookupChild] at h
  | cons item rest ih =>
    cases item with
    | err e =>
      simp only [lookupChild] at h
      have := ih h
      simp only [List.cons.sizeOf_spec]
      omega
    | entry name ft m sub' =>
      simp only [lookupChild] at h
      by_cases hn : name = n
      · rw [if_pos hn, Option.some.injEq] at h
        subst h
        simp only [List.cons.sizeOf_spec, RawItem.entry.sizeOf_spec]
        omega
      · rw [if_neg hn] at h
        have := ih h
        simp only [List.cons.sizeOf_spec]
        omega

/-- The file name a child spec refers to: the last component of its path
(`read_dir_spec.path.join(file_name)` makes it the appended component). -/
def specFileName (cs : ReadDirSpec) : OsStr :=
  cs.path.getLastD (OsStr.utf8 "")

/-- Modelled from the spec: the strictly sequential depth-first pre-order
walk of §4.D's ordering contract ("the sequence that a strictly sequential
depth-first pre-order walk, using the same per-directory ordering function,
would produce").  A directory whose read fails contributes a single error
(spec §7); otherwise each processed entry is emitted, immediately followed
by the walk of its subtree when it carries a `children_spec` (the subtree is
resolved by the spec's final path component inside the present listing). -/
def walkDirTree (opts : WalkDirOptions) (spec : ReadDirSpec) (t : FsTree) :
    List (Except IoError DirEntry) :=
  match t with
  | .failDir e => [.error e]
  | .dir items =>
    (dirEntryResults opts spec items).flatMap fun r =>
      r ::
        (match r with
        | .error _ => []
        | .ok de =>
          match de.children_spec with
          | none => []
          | some cs =>
            match h : lookupChild items (specFileName cs) with
            | none => []
            | some sub => walkDirTree opts cs sub)
termination_by sizeOf t
decreasing_by
  have := sizeOf_lookupChild h
  simp only [FsTree.dir.sizeOf_spec]
  omega

/-- Modelled from the spec: the set of directory-read tasks the engine
dispatches (spec §4.D step 6: "After publishing, inspect the final vector
for entries that still carry a `children_spec` and schedule a task for each,
in vector order"), each paired with the filesystem subtree its path reaches.
The task for the given spec itself heads the list. -/
def scheduledTasks (opts : WalkDirOptions) (spec : ReadDirSpec) (t : FsTree) :
    List (ReadDirSpec × FsTree) :=
  (spec, t) ::
    (match t with
    | .failDir _ => []
    | .dir items =>
      (dirEntryResults opts spec items).flatMap fun r =>
        match r with
        | .error _ => []
        | .ok de =>
          match de.children_spec with
          | none => []
          | some cs =>
            match h : lookupChild items (specFileName cs) with
            | none => []
            | some sub => scheduledTasks opts cs sub)
termination_by sizeOf t
decreasing_by
  have := sizeOf_lookupChild h
  simp only [FsTree.dir.sizeOf_spec]
  omega

/-- Modelled from the spec: the consumer side of the handoff tree
(spec §4.E).  `published` maps a task's spec to the `ReadDir` result its
task published, or `none` while the task is still pending.  The iterator
walks the tree depth-first: it blocks until the node's result is published
(a node never published yields nothing — with a covering schedule this case
never arises), then emits each entry of the published vector, descending
into the child node of every entry that carries a `children_spec`. -/
def consumeHandoff
    (published : ReadDirSpec → Option (Except IoError (List (Except IoError DirEntry))))
    (opts : WalkDirOptions) (spec : ReadDirSpec) (t : FsTree) :
    List (Except IoError DirEntry) :=
  match published spec with
  | none => []
  | some (.error e) => [.error e]
  | some (.ok rs) =>
    rs.flatMap fun r =>
      r ::
        (match r with
        | .error _ => []
        | .ok de =>
          match de.children_spec with
          | none => []
          | some cs =>
            match t with
            | .failDir _ => []
            | .dir items =>
              match h : lookupChild items (specFileName cs) with
              | none => []
              | some sub => consumeHandoff published opts cs sub)
termination_by sizeOf t
decreasing_by
  have := sizeOf_lookupChild h
  simp only [FsTree.dir.sizeOf_spec]
  omega

/-- The inputs of a walk: the root path handed to `WalkDir::new`, the file
type of the root, and the filesystem subtree reached at the root path. -/
structure RootInfo where
  path : Path
  ftype : FileType
  tree : FsTree

/-- The root `ReadDirSpec` (spec §2: "caller creates a root `ReadDirSpec`";
depth 0, state `None`). -/
def rootSpec (root : RootInfo) : ReadDirSpec :=
  { path := root.path, depth := 0, state := none }

/-- Modelled from the spec: the synthetic root entry (spec §4.E step 1:
depth 0, no parent spec, no preloaded metadata, `children_spec` present iff
the root is a directory).  The spec does not fix the root entry's file name;
the model uses the final component of the root path (matching
`test_walk_file`, where the single yielded entry is named `a.txt`). -/
def rootEntry (root : RootInfo) : DirEntry :=
  { depth := 0
    file_name := root.path.getLastD (OsStr.utf8 "")
    file_type := .ok root.ftype
    metadata := none
    parent_spec := none
    children_spec := if root.ftype.is_dir then some (rootSpec root) else none }

/-- Modelled from the spec: the sequential reference walk (spec §4.D's
ordering contract and §4.E): the synthetic root entry, followed — when the
root is a directory — by the depth-first walk of the root directory. -/
def seqWalk (opts : WalkDirOptions) (root : RootInfo) :
    List (Except IoError DirEntry) :=
  .ok (rootEntry root) ::
    (if root.ftype.is_dir then walkDirTree opts (rootSpec root) root.tree else [])

/-- Modelled from the spec: all tasks the engine schedules for a walk
(spec §4.E step 2: nothing is scheduled when the root is not a directory). -/
def walkTasks (opts : WalkDirOptions) (root : RootInfo) :
    List (ReadDirSpec × FsTree) :=
  if root.ftype.is_dir then scheduledTasks opts (rootSpec root) root.tree else []

/-- Modelled from the spec: the publication map produced by running the
scheduled tasks in an arbitrary completion order `sched` (spec §4.D step 5:
each task publishes the closure's result for its spec, exactly once;
parallelism and `num_threads` only determine the completion order, which the
map does not record). -/
def publishedOf (opts : WalkDirOptions) (sched : List (ReadDirSpec × FsTree)) :
    ReadDirSpec → Option (Except IoError (List (Except IoError DirEntry))) :=
  fun s => (sched.find? fun p => p.1 == s).map fun p => readDirResult opts p.1 p.2

/-- Modelled from the spec: the sequence the caller observes through
`DirEntryIter` when the scheduled tasks completed in the order `sched`
(spec §4.E): the synthetic root entry, then the depth-first consumption of
the handoff tree. -/
def observedWalk (opts : WalkDirOptions) (root : RootInfo)
    (sched : List (ReadDirSpec × FsTree)) : List (Except IoError DirEntry) :=
  .ok (rootEntry root) ::
    (if root.ftype.is_dir then
      consumeHandoff (publishedOf opts sched) opts (rootSpec root) root.tree
    else [])

/-! ## Properties of the comparator -/

/-- `bytesCmp x y ≠ gt` is transitive (byte-wise lexicographic order). -/
theorem bytesCmp_le_trans : ∀ (x y z : List Nat),
    bytesCmp x y ≠ Ordering.gt → bytesCmp y z ≠ Ordering.gt →
    bytesCmp x z ≠ Ordering.gt
  | [], _, [], _, _ => by simp [bytesCmp]
  | [], _, _ :: _, _, _ => by simp [bytesCmp]
  | _ :: _, [], _, hxy, _ => by simp [bytesCmp] at hxy
  | _ :: _, _ :: _, [], _, hyz => by simp [bytesCmp] at hyz
  | a :: as, b :: bs, c :: cs, hxy, hyz => by
    simp only [bytesCmp] at hxy hyz ⊢
    rcases Nat.lt_trichotomy a b with hab | hab | hab
    · rcases Nat.lt_trichotomy b c with hbc | hbc | hbc
      · rw [if_pos (Nat.lt_trans hab hbc)]; simp
      · subst hbc; rw [if_pos hab]; simp
      · rw [if_neg (by omega), if_pos hbc] at hyz; exact absurd rfl hyz
    · subst hab
      rw [if_neg (by omega), if_neg (by omega)] at hxy
      rcases Nat.lt_trichotomy a c with hac | hac | hac
      · rw [if_pos hac]; simp
      · subst hac
        rw [if_neg (by omega), if_neg (by omega)] at hyz ⊢
        exact bytesCmp_le_trans as bs cs hxy hyz
      · rw [if_neg (by omega), if_pos hac] at hyz; exact absurd rfl hyz
    · rw [if_neg (by omega), if_pos hab] at hxy; exact absurd rfl hxy

/-- `bytesCmp` is total: one of the two comparisons is not `gt`. -/
theorem bytesCmp_le_total : ∀ (x y : List Nat),
    bytesCmp x y ≠ Ordering.gt ∨ bytesCmp y x ≠ Ordering.gt
  | [], [] => by left; simp [bytesCmp]
  | [], _ :: _ => by left; simp [bytesCmp]
  | _ :: _, [] => by right; simp [bytesCmp]
  | a :: as, b :: bs => by
    simp only [bytesCmp]
    rcases Nat.lt_trichotomy a b with h | h | h
    · left; rw [if_pos h]; simp
    · subst h
      rcases bytesCmp_le_total as bs with ih | ih
      · left; rw [if_neg (by omega), if_neg (by omega)]; exact ih
      · right; rw [if_neg (by omega), if_neg (by omega)]; exact ih
    · right; rw [if_pos h]; simp

/-- The boolean order underlying `sort_by`'s comparator. -/
def sortLe (a b : Except IoError DirEntry) : Bool :=
  sortByCmp a b != Ordering.gt

theorem bne_gt_iff {o : Ordering} : (o != Ordering.gt) = true ↔ o ≠ Ordering.gt := by
  cases o <;> decide

theorem sortLe_trans (a b c : Except IoError DirEntry) :
    sortLe a b → sortLe b c → sortLe a c := by
  cases a <;> cases b <;> cases c <;>
    simp only [sortLe, sortByCmp, OsStr.cmp, bne_gt_iff] <;>
    intro h1 h2 <;>
    first
      | decide
      | exact absurd rfl h1
      | exact absurd rfl h2
      | exact bytesCmp_le_trans _ _ _ h1 h2

theorem sortLe_total (a b : Except IoError DirEntry) :
    sortLe a b || sortLe b a := by
  cases a <;> cases b <;>
    simp only [sortLe, sortByCmp, OsStr.cmp, Bool.or_eq_true, bne_gt_iff] <;>
    first
      | left; decide
      | right; decide
      | exact bytesCmp_le_total _ _

/-- Where a `perform_sort` output is headed: an error never precedes a
success, and two successes appear in ascending byte-lexicographic file-name
order. -/
def nameSortedAfter : Except IoError DirEntry → Except IoError DirEntry → Prop
  | .error _, .ok _ => False
  | .ok da, .ok db => OsStr.cmp da.file_name db.file_name ≠ Ordering.gt
  | _, _ => True

theorem sortLe_imp_nameSortedAfter {a b : Except IoError DirEntry}
    (h : sortLe a b) : nameSortedAfter a b := by
  cases a <;> cases b <;>
    simp only [sortLe, sortByCmp, OsStr.cmp, bne_gt_iff, nameSortedAfter] at h ⊢ <;>
    first
      | trivial
      | exact absurd rfl h
      | exact h

theorem perform_sort_pairwise (s : SortKey) (l : List (Except IoError DirEntry)) :
    (s.perform_sort l).Pairwise nameSortedAfter := by
  apply List.Pairwise.imp sortLe_imp_nameSortedAfter
  exact List.sorted_mergeSort (fun a b c => sortLe_trans a b c) sortLe_total l

theorem flatMapCongr {α β : Type} {l : List α} {f g : α → List β}
    (h : ∀ a ∈ l, f a = g a) : l.flatMap f = l.flatMap g := by
  induction l with
  | nil => rfl
  | cons a l ih =>
    simp only [List.flatMap_cons]
    rw [h a (List.mem_cons_self _ _), ih (fun b hb => h b (List.mem_cons_of_mem _ hb))]

/-- What the walk of a directory contributes for one of the directory's
results: the result itself, followed — for a successful entry carrying a
`children_spec` that resolves in the listing — by the walk of the child. -/
def walkEntry (opts : WalkDirOptions) (items : List RawItem)
    (r : Except IoError DirEntry) : List (Except IoError DirEntry) :=
  r ::
    (match r with
    | .error _ => []
    | .ok de =>
      match de.children_spec with
      | none => []
      | some cs =>
        match lookupChild items (specFileName cs) with
        | none => []
        | some sub => walkDirTree opts cs sub)

/-- The walk of a directory node is the concatenation of the per-result
contributions. -/
theorem walkDirTree_dir (opts : WalkDirOptions) (spec : ReadDirSpec)
    (items : List RawItem) :
    walkDirTree opts spec (.dir items) =
      (dirEntryResults opts spec items).flatMap (walkEntry opts items) := by
  rw [walkDirTree]
  apply flatMapCongr
  intro r _hr
  cases r with
  | error e => rfl
  | ok de =>
    simp only [walkEntry]
    cases hc : de.children_spec with
    | none => rfl
    | some cs =>
      dsimp only
      split
      · next heq => rw [heq]
      · next sub heq => rw [heq]

/-! ## Structure of per-directory results and of the walk -/

/-- Without a user transform, membership in a directory's processed results
coincides with membership in the raw filtered results (sorting is a
permutation). -/
theorem mem_dirEntryResults_iff_raw {opts : WalkDirOptions} {spec : ReadDirSpec}
    {items : List RawItem} {r : Except IoError DirEntry}
    (hpe : opts.process_entries = none) :
    r ∈ dirEntryResults opts spec items ↔ r ∈ dirEntryResultsRaw opts spec items := by
  simp only [dirEntryResults, hpe]
  cases hs : opts.sort with
  | none => simp
  | some s => simp [SortKey.perform_sort]

/-- Shape of every successful raw result of a directory read: its depth is
the parent spec's depth plus one, its parent is the reading spec, under
`skip_hidden` its name is not hidden, and a `children_spec`, when present,
is the parent path extended by the entry's name at the entry's depth, and is
only present when that depth is below `max_depth` and the reported file type
is a directory. -/
theorem mem_raw_ok_shape {opts : WalkDirOptions} {spec : ReadDirSpec}
    {items : List RawItem} {de : DirEntry}
    (h : Except.ok de ∈ dirEntryResultsRaw opts spec items) :
    de.depth = spec.depth + 1 ∧
    de.parent_spec = some spec ∧
    (opts.skip_hidden = true → is_hidden de.file_name = false) ∧
    ∀ cs, de.children_spec = some cs →
      cs = { path := spec.path ++ [de.file_name], depth := spec.depth + 1,
             state := none } ∧
      spec.depth + 1 < opts.max_depth ∧
      ∃ ft, de.file_type = Except.ok ft ∧ ft.is_dir = true := by
  simp only [dirEntryResultsRaw] at h
  rcases List.mem_filterMap.mp h with ⟨item, _hmem, hf⟩
  cases item with
  | err e => simp at hf
  | entry name ftype meta sub =>
    dsimp only at hf
    by_cases hsk : (opts.skip_hidden && is_hidden name) = true
    · rw [if_pos hsk] at hf
      simp at hf
    · rw [if_neg hsk] at hf
      simp only [Option.some.injEq, Except.ok.injEq] at hf
      subst hf
      refine ⟨rfl, rfl, ?_, ?_⟩
      · intro hskip
        rw [hskip, Bool.true_and] at hsk
        simpa using hsk
      · intro cs hcs
        simp only at hcs
        cases ftype with
        | error e => simp at hcs
        | ok ft =>
          simp only at hcs
          by_cases hdir : (ft.is_dir && decide (spec.depth + 1 < opts.max_depth)) = true
          · rw [if_pos hdir] at hcs
            rcases Bool.and_eq_true_iff.mp hdir with ⟨hd1, hd2⟩
            simp only [Option.some.injEq] at hcs
            exact ⟨hcs.symm, of_decide_eq_true hd2, ft, rfl, hd1⟩
          · rw [if_neg hdir] at hcs
            simp at hcs

/-- Combination: shape of every successful processed result, absent a user
transform. -/
theorem dirEntryResults_ok_shape {opts : WalkDirOptions} {spec : ReadDirSpec}
    {items : List RawItem} {de : DirEntry}
    (hpe : opts.process_entries = none)
    (h : Except.ok de ∈ dirEntryResults opts spec items) :
    de.depth = spec.depth + 1 ∧
    de.parent_spec = some spec ∧
    (opts.skip_hidden = true → is_hidden de.file_name = false) ∧
    ∀ cs, de.children_spec = some cs →
      cs = { path := spec.path ++ [de.file_name], depth := spec.depth + 1,
             state := none } ∧
      spec.depth + 1 < opts.max_depth ∧
      ∃ ft, de.file_type = Except.ok ft ∧ ft.is_dir = true :=
  mem_raw_ok_shape ((mem_dirEntryResults_iff_raw hpe).mp h)

/-- Every result of a directory's read is emitted by the walk of that
directory (the walk interleaves each result with the walk of its subtree,
dropping none). -/
theorem mem_walkDirTree_self {opts : WalkDirOptions} {spec : ReadDirSpec}
    {items : List RawItem} {r : Except IoError DirEntry}
    (hr : r ∈ dirEntryResults opts spec items) :
    r ∈ walkDirTree opts spec (.dir items) := by
  rw [walkDirTree]
  exact List.mem_flatMap.mpr ⟨r, hr, List.mem_cons_self _ _⟩

/-- A task scheduled below a child directory is scheduled below the parent. -/
theorem scheduledTasks_sub_mem {opts : WalkDirOptions} {spec : ReadDirSpec}
    {items : List RawItem} {de' : DirEntry} {cs : ReadDirSpec} {sub : FsTree}
    {p : ReadDirSpec × FsTree}
    (hr : Except.ok de' ∈ dirEntryResults opts spec items)
    (hcs : de'.children_spec = some cs)
    (hlk : lookupChild items (specFileName cs) = some sub)
    (hp : p ∈ scheduledTasks opts cs sub) :
    p ∈ scheduledTasks opts spec (.dir items) := by
  rw [scheduledTasks.eq_def]
  refine List.mem_cons_of_mem _ (List.mem_flatMap.mpr ⟨Except.ok de', hr, ?_⟩)
  dsimp only
  rw [hcs]
  dsimp only
  split
  · next heq => rw [hlk] at heq; cases heq
  · next sub' heq =>
    rw [hlk] at heq
    cases heq
    exact hp

/-- Every successful entry the walk emits belongs to the processed results
of one of the scheduled directory-read tasks. -/
theorem mem_walkDirTree_ok_aux {opts : WalkDirOptions} :
    ∀ (n : Nat) (spec : ReadDirSpec) (t : FsTree) (de : DirEntry),
      sizeOf t ≤ n →
      Except.ok de ∈ walkDirTree opts spec t →
      ∃ p ∈ scheduledTasks opts spec t, ∃ items, p.2 = FsTree.dir items ∧
        Except.ok de ∈ dirEntryResults opts p.1 items := by
  intro n
  induction n with
  | zero =>
    intro spec t de ht _
    exfalso
    cases t <;> simp_arith at ht
  | succ n ih =>
    intro spec t de ht hmem
    cases t with
    | failDir e =>
      rw [walkDirTree] at hmem
      simp at hmem
    | dir items =>
      rw [walkDirTree] at hmem
      rcases List.mem_flatMap.mp hmem with ⟨r, hr, hin⟩
      rcases List.mem_cons.mp hin with heq | htail
      · refine ⟨(spec, .dir items), ?_, items, rfl, ?_⟩
        · rw [scheduledTasks.eq_def]
          exact List.mem_cons_self _ _
        · rw [← heq] at hr
          exact hr
      · split at htail
        · simp at htail
        · split at htail
          · simp at htail
          · split at htail
            · simp at htail
            · next de' cs hcs sub hlk =>
              have hsub : sizeOf sub ≤ n := by
                have h1 := sizeOf_lookupChild hlk
                simp_arith at ht
                omega
              rcases ih cs sub de hsub htail with ⟨p, hp, items', hpi, hpm⟩
              exact ⟨p, scheduledTasks_sub_mem hr hcs hlk hp, items', hpi, hpm⟩

/-- Wrapper for `mem_walkDirTree_ok_aux` at the exact size. -/
theorem mem_walkDirTree_ok {opts : WalkDirOptions} {spec : ReadDirSpec}
    {t : FsTree} {de : DirEntry}
    (h : Except.ok de ∈ walkDirTree opts spec t) :
    ∃ p ∈ scheduledTasks opts spec t, ∃ items, p.2 = FsTree.dir items ∧
      Except.ok de ∈ dirEntryResults opts p.1 items :=
  mem_walkDirTree_ok_aux (sizeOf t) spec t de (Nat.le_refl _) h

/-- Every scheduled task other than the initial one reads a directory whose
spec depth is strictly below `max_depth` (its `children_spec` was attached
under that condition). -/
theorem scheduledTasks_depth_aux {opts : WalkDirOptions}
    (hpe : opts.process_entries = none) :
    ∀ (n : Nat) (spec : ReadDirSpec) (t : FsTree) (p : ReadDirSpec × FsTree),
      sizeOf t ≤ n →
      p ∈ scheduledTasks opts spec t →
      p.1 = spec ∨ p.1.depth < opts.max_depth := by
  intro n
  induction n with
  | zero =>
    intro spec t p ht _
    exfalso
    cases t <;> simp_arith at ht
  | succ n ih =>
    intro spec t p ht hp
    rw [scheduledTasks.eq_def] at hp
    rcases List.mem_cons.mp hp with heq | htail
    · left; rw [heq]
    · cases t with
      | failDir e => simp at htail
      | dir items =>
        rcases List.mem_flatMap.mp htail with ⟨r, hr, hin⟩
        split at hin
        · simp at hin
        · split at hin
          · simp at hin
          · split at hin
            · simp at hin
            · next de' cs hcs sub hlk =>
              have hsub : sizeOf sub ≤ n := by
                have h1 := sizeOf_lookupChild hlk
                simp_arith at ht
                omega
              rcases ih cs sub p hsub hin with hcase | hcase
              · right
                rw [hcase]
                rcases dirEntryResults_ok_shape hpe hr with ⟨_, _, _, hshape⟩
                rcases hshape cs hcs with ⟨hcseq, hlt, _⟩
                rw [hcseq]
                exact hlt
              · right; exact hcase

/-- Wrapper for `scheduledTasks_depth_aux` at the exact size. -/
theorem scheduledTasks_depth {opts : WalkDirOptions} {spec : ReadDirSpec}
    {t : FsTree} {p : ReadDirSpec × FsTree}
    (hpe : opts.process_entries = none)
    (hp : p ∈ scheduledTasks opts spec t) :
    p.1 = spec ∨ p.1.depth < opts.max_depth :=
  scheduledTasks_depth_aux hpe (sizeOf t) spec t p (Nat.le_refl _) hp

/-! ## Claim theorems -/

/-- C2: with `sort = name` configured, the per-directory sort keeps exactly
the given results (a permutation) and orders them so that, within the
directory, successful entries are in ascending byte-lexicographic file-name
order and every per-entry error is placed after all successful entries;
absent a user transform, a directory's published result vector is therefore
ordered this way. -/
theorem sort_name_orders_directory (l : List (Except IoError DirEntry)) :
    (SortKey.Name.perform_sort l).Perm l ∧
    (SortKey.Name.perform_sort l).Pairwise nameSortedAfter ∧
    ∀ (opts : WalkDirOptions) (spec : ReadDirSpec) (items : List RawItem),
      opts.sort = some SortKey.Name → opts.process_entries = none →
      (dirEntryResults opts spec items).Pairwise nameSortedAfter := by
  refine ⟨List.mergeSort_perm l _, perform_sort_pairwise SortKey.Name l,
    fun opts spec items hs hpe => ?_⟩
  simp only [dirEntryResults, hs, hpe]
  exact perform_sort_pairwise SortKey.Name _

/-- C5 (amended): `Sort::perform_sort` ignores the configured sort key —
for every key in {name, access, creation, modification} it produces the same
name-ordered permutation: successes ascending by file name, errors after
successes.  The time-based keys are not implemented as distinct orders. -/
theorem perform_sort_ignores_key (s : SortKey) (l : List (Except IoError DirEntry)) :
    s.perform_sort l = SortKey.Name.perform_sort l ∧
    (s.perform_sort l).Perm l ∧
    (s.perform_sort l).Pairwise nameSortedAfter :=
  ⟨rfl, List.mergeSort_perm l _, perform_sort_pairwise s l⟩

/-- The access timestamp carried by an entry's preloaded metadata. -/
def accessTimeOf (de : DirEntry) : Nat :=
  match de.metadata with
  | some (.ok m) => m.accessed
  | _ => 0

/-- Modelled from the spec: "successful entries sorted by the chosen key" —
for the `access-time` key, successes must appear in ascending order of
access timestamp. -/
def sortedByAccessTime (l : List (Except IoError DirEntry)) : Prop :=
  l.Pairwise fun a b =>
    match a, b with
    | .ok da, .ok db => accessTimeOf da ≤ accessTimeOf db
    | _, _ => True

/-- An entry named `a` whose metadata reports access time 2. -/
def ceA : DirEntry :=
  { depth := 1, file_name := OsStr.utf8 "a", file_type := .ok .file
    metadata := some (.ok { accessed := 2, created := 0, modified := 0 })
    parent_spec := none, children_spec := none }

/-- An entry named `b` whose metadata reports access time 1. -/
def ceB : DirEntry :=
  { depth := 1, file_name := OsStr.utf8 "b", file_type := .ok .file
    metadata := some (.ok { accessed := 1, created := 0, modified := 0 })
    parent_spec := none, children_spec := none }

/-- C5 (counterexample): with the `access-time` key configured, sorting the
two-entry directory `[a (atime 2), b (atime 1)]` leaves the entries in name
order, which is *not* ascending access-time order — the chosen key is not
honoured. -/
theorem perform_sort_access_counterexample :
    SortKey.Access.perform_sort [.ok ceA, .ok ceB] = [.ok ceA, .ok ceB] ∧
    ¬ sortedByAccessTime (SortKey.Access.perform_sort [.ok ceA, .ok ceB]) := by
  have hs : SortKey.Access.perform_sort [.ok ceA, .ok ceB] = [.ok ceA, .ok ceB] := by
    unfold SortKey.perform_sort
    apply List.mergeSort_of_sorted
    refine List.Pairwise.cons ?_ (by simp)
    intro b hb
    simp only [List.mem_singleton] at hb
    subst hb
    decide
  refine ⟨hs, ?_⟩
  rw [hs]
  intro hsorted
  have := List.rel_of_pairwise_cons hsorted (List.mem_singleton.mpr rfl)
  simp [ceA, ceB, accessTimeOf] at this

/-- C6: calling `max_depth(1)` on the builder forces `num_threads` to 1 (the
walk then executes every task synchronously on the consumer's thread, which
is the defined meaning of `num_threads = 1`), while recording the depth cap. -/
theorem max_depth_one_forces_serial (w : WalkDir) :
    (w.max_depth 1).options.num_threads = 1 ∧
    (w.max_depth 1).options.max_depth = 1 := by
  simp [WalkDir.max_depth]

/-- C3 (amended): absent a user transform, every successful entry the walk
emits has depth at most `max 1 max_depth`; in particular, whenever
`max_depth ≥ 1` the claimed bound `depth(e) ≤ max_depth` holds.  (The bound
cannot be improved to `max_depth` itself: `max_depth` never reaches the
engine, so when the root is a directory its direct children — depth 1 — are
read and emitted even under `max_depth = 0`.) -/
theorem emitted_depth_bounded {opts : WalkDirOptions} {root : RootInfo}
    {de : DirEntry}
    (hpe : opts.process_entries = none)
    (h : Except.ok de ∈ seqWalk opts root) :
    de.depth ≤ max 1 opts.max_depth ∧
    (1 ≤ opts.max_depth → de.depth ≤ opts.max_depth) := by
  have hbound : de.depth ≤ max 1 opts.max_depth := by
    rcases List.mem_cons.mp h with heq | htail
    · cases heq
      simp [rootEntry]
    · by_cases hdir : root.ftype.is_dir = true
      · rw [if_pos hdir] at htail
        rcases mem_walkDirTree_ok htail with ⟨p, hp, items, _, hmem⟩
        have hdepth := (dirEntryResults_ok_shape hpe hmem).1
        rcases scheduledTasks_depth hpe hp with hcase | hcase
        · rw [hcase] at hdepth
          simp [rootSpec] at hdepth
          omega
        · omega
      · rw [if_neg hdir] at htail
        simp at htail
  exact ⟨hbound, fun h1 => by omega⟩

/-- C4 (amended): with `skip_hidden` enabled the hidden successes of a
directory are dropped at the `filter_map` stage — before the per-directory
sort and before the user transform run — so no successful raw result has a
hidden name; consequently, when no user transform is configured (a transform
may rewrite the vector arbitrarily, including inserting hidden names), every
emitted entry other than the synthetic root entry has a file name that does
not begin with `.`. -/
theorem skip_hidden_drops_hidden_names {opts : WalkDirOptions} {root : RootInfo}
    (hsk : opts.skip_hidden = true) :
    (∀ spec items de, Except.ok de ∈ dirEntryResultsRaw opts spec items →
      is_hidden de.file_name = false ∧
      ∀ s, de.file_name = OsStr.utf8 s → startsWithDot s = false) ∧
    (opts.process_entries = none →
      ∀ de, Except.ok de ∈ (seqWalk opts root).tail →
        is_hidden de.file_name = false) := by
  constructor
  · intro spec items de hmem
    have hh := (mem_raw_ok_shape hmem).2.2.1 hsk
    refine ⟨hh, fun s hs => ?_⟩
    rw [hs] at hh
    simpa [is_hidden, OsStr.to_str] using hh
  · intro hpe de htail
    simp only [seqWalk, List.tail_cons] at htail
    by_cases hdir : root.ftype.is_dir = true
    · rw [if_pos hdir] at htail
      rcases mem_walkDirTree_ok htail with ⟨p, _, items, _, hmem⟩
      exact (dirEntryResults_ok_shape hpe hmem).2.2.1 hsk
    · rw [if_neg hdir] at htail
      simp at htail

/-- C7 (amended): the synthetic root entry has depth 0 and no parent spec
and is the first emitted item; absent a user transform (which may insert
entries with arbitrary depth and parent fields), every other successful
entry the walk emits records a parent `ReadDirSpec` and has depth exactly
one more than that spec's depth. -/
theorem depth_is_parent_depth_plus_one {opts : WalkDirOptions} {root : RootInfo}
    (hpe : opts.process_entries = none) :
    (rootEntry root).depth = 0 ∧
    (rootEntry root).parent_spec = none ∧
    (seqWalk opts root).head? = some (.ok (rootEntry root)) ∧
    ∀ de, Except.ok de ∈ (seqWalk opts root).tail →
      ∃ ps, de.parent_spec = some ps ∧ de.depth = ps.depth + 1 := by
  refine ⟨rfl, rfl, rfl, fun de htail => ?_⟩
  simp only [seqWalk, List.tail_cons] at htail
  by_cases hdir : root.ftype.is_dir = true
  · rw [if_pos hdir] at htail
    rcases mem_walkDirTree_ok htail with ⟨p, _, items, _, hmem⟩
    rcases dirEntryResults_ok_shape hpe hmem with ⟨hdepth, hparent, _, _⟩
    exact ⟨p.1, hparent, hdepth⟩
  · rw [if_neg hdir] at htail
    simp at htail

/-- An entry of a directory listing whose name survives the hidden filter
produces a successful raw result bearing that name. -/
theorem raw_contains_entry {opts : WalkDirOptions} {spec : ReadDirSpec}
    {items : List RawItem} {name : OsStr} {ftype : Except IoError FileType}
    {meta : Except IoError Metadata} {sub : FsTree}
    (h : RawItem.entry name ftype meta sub ∈ items)
    (hcond : (opts.skip_hidden && is_hidden name) = false) :
    ∃ de, Except.ok de ∈ dirEntryResultsRaw opts spec items ∧
      de.file_name = name := by
  have hne : ¬ ((opts.skip_hidden && is_hidden name) = true) := by simp [hcond]
  refine ⟨{ depth := spec.depth + 1, file_name := name, file_type := ftype
            metadata := if opts.preload_metadata then some meta else none
            parent_spec := some spec
            children_spec :=
              match ftype with
              | .ok ft =>
                if ft.is_dir && decide (spec.depth + 1 < opts.max_depth) then
                  some { path := spec.path ++ [name], depth := spec.depth + 1,
                         state := none }
                else none
              | .error _ => none }, ?_, rfl⟩
  simp only [dirEntryResultsRaw]
  refine List.mem_filterMap.mpr ⟨_, h, ?_⟩
  dsimp only
  rw [if_neg hne]
  cases ftype <;> rfl

/-- C9: `is_hidden` answers `false` for every file name that is not valid
UTF-8 (`to_str` yields `None`, and `unwrap_or(false)` turns that into
"not hidden"); consequently a directory entry whose OS-level name is not
valid UTF-8 — even one whose raw bytes begin with `.` (byte 46) — survives
the hidden filter and, absent a user transform, is emitted by the walk of
its directory. -/
theorem non_utf8_name_not_hidden {opts : WalkDirOptions} {spec : ReadDirSpec}
    {items : List RawItem} {bs : List Nat} {ftype : Except IoError FileType}
    {meta : Except IoError Metadata} {sub : FsTree}
    (hpe : opts.process_entries = none)
    (hmem : RawItem.entry (OsStr.bytes bs) ftype meta sub ∈ items) :
    (∀ bs' : List Nat, is_hidden (OsStr.bytes bs') = false) ∧
    ∃ de, de.file_name = OsStr.bytes bs ∧
      Except.ok de ∈ dirEntryResults opts spec items ∧
      Except.ok de ∈ walkDirTree opts spec (.dir items) := by
  refine ⟨fun bs' => rfl, ?_⟩
  rcases @raw_contains_entry opts spec items (OsStr.bytes bs) ftype meta sub hmem
      (by simp [is_hidden, OsStr.to_str]) with ⟨de, hraw, hname⟩
  have hres : Except.ok de ∈ dirEntryResults opts spec items :=
    (mem_dirEntryResults_iff_raw hpe).mpr hraw
  exact ⟨de, hname, hres, mem_walkDirTree_self hres⟩

/-- C8: when the initial OS read of a directory fails with `e`, (1) the walk
of that directory yields the single error result `e` — the closure's `?`
returns before filtering, sorting or the user transform run; (2) no child
task is scheduled below it (its task is the only one); (3) its published
`ReadDir` result is the bare error; and (4) inside its parent the walk emits
the directory's own entry, then the single error, and then continues with
the walk of the remaining sibling results, every one of which is still
emitted. -/
theorem failed_read_dir_isolated (opts : WalkDirOptions) (spec : ReadDirSpec)
    (e : IoError) (items : List RawItem)
    (rs1 rs2 : List (Except IoError DirEntry)) (de : DirEntry)
    (cs : ReadDirSpec)
    (hsplit : dirEntryResults opts spec items = rs1 ++ Except.ok de :: rs2)
    (hcs : de.children_spec = some cs)
    (hlk : lookupChild items (specFileName cs) = some (.failDir e)) :
    walkDirTree opts cs (.failDir e) = [Except.error e] ∧
    scheduledTasks opts cs (.failDir e) = [(cs, FsTree.failDir e)] ∧
    readDirResult opts cs (.failDir e) = Except.error e ∧
    ∃ l1 l2, walkDirTree opts spec (.dir items) =
        l1 ++ Except.ok de :: Except.error e :: l2 ∧
      ∀ r ∈ rs2, r ∈ l2 := by
  refine ⟨by rw [walkDirTree], by rw [scheduledTasks.eq_def], rfl, ?_⟩
  have hde : walkEntry opts items (Except.ok de) = [Except.ok de, Except.error e] := by
    simp only [walkEntry]
    rw [hcs]
    dsimp only
    rw [hlk]
    dsimp only
    rw [walkDirTree]
  refine ⟨rs1.flatMap (walkEntry opts items), rs2.flatMap (walkEntry opts items),
    ?_, fun r hr => ?_⟩
  · rw [walkDirTree_dir, hsplit, List.flatMap_append, List.flatMap_cons, hde]
    simp
  · refine List.mem_flatMap.mpr ⟨r, hr, ?_⟩
    rw [walkEntry.eq_def]
    exact List.mem_cons_self _ _

/-- A task's published result is the closure's result for that task,
whenever the completion order ran the task and no spec was scheduled with
two different trees. -/
theorem publishedOf_eq {opts : WalkDirOptions}
    {sched : List (ReadDirSpec × FsTree)} {p : ReadDirSpec × FsTree}
    (hfun : ∀ q ∈ sched, ∀ q' ∈ sched, q.1 = q'.1 → q.2 = q'.2)
    (hp : p ∈ sched) :
    publishedOf opts sched p.1 = some (readDirResult opts p.1 p.2) := by
  have hsome : (sched.find? fun q => q.1 == p.1).isSome := by
    rw [List.find?_isSome]
    exact ⟨p, hp, by simp⟩
  rcases Option.isSome_iff_exists.mp hsome with ⟨q, hq⟩
  have hqmem : q ∈ sched := List.mem_of_find?_eq_some hq
  have hqp : q.1 = p.1 := by
    have h1 := List.find?_some hq
    simpa using h1
  have hq2 : q.2 = p.2 := hfun q hqmem p hp hqp
  simp only [publishedOf, hq, Option.map_some']
  rw [hqp, hq2]

/-- The blocking depth-first consumer reproduces the sequential walk as soon
as every scheduled task has published the deterministic result of its
directory read — regardless of the order in which the tasks completed. -/
theorem consumeHandoff_eq_aux {opts : WalkDirOptions}
    {published : ReadDirSpec → Option (Except IoError (List (Except IoError DirEntry)))} :
    ∀ (n : Nat) (spec : ReadDirSpec) (t : FsTree),
      sizeOf t ≤ n →
      (∀ p ∈ scheduledTasks opts spec t,
        published p.1 = some (readDirResult opts p.1 p.2)) →
      consumeHandoff published opts spec t = walkDirTree opts spec t := by
  intro n
  induction n with
  | zero => intro spec t ht _; exfalso; cases t <;> simp_arith at ht
  | succ n ih =>
    intro spec t ht hpub
    have hself : published spec = some (readDirResult opts spec t) := by
      have h0 := hpub (spec, t) (by rw [scheduledTasks.eq_def]; exact List.mem_cons_self _ _)
      exact h0
    cases t with
    | failDir e =>
      rw [consumeHandoff, hself, walkDirTree]
      rfl
    | dir items =>
      rw [consumeHandoff, hself]
      dsimp only [readDirResult]
      rw [walkDirTree]
      apply flatMapCongr
      intro r hr
      cases r with
      | error e => rfl
      | ok de =>
        dsimp only
        cases hc : de.children_spec with
        | none => rfl
        | some cs =>
          dsimp only
          split
          · next heq => rfl
          · next sub heq =>
            have hsub : sizeOf sub ≤ n := by
              have h1 := sizeOf_lookupChild heq
              simp_arith at ht
              omega
            rw [ih cs sub hsub fun p hp =>
              hpub p (scheduledTasks_sub_mem hr hc heq hp)]

/-- C1: the ordering contract.  `sched` enumerates, in an arbitrary
completion order, the tasks the engine ran (every scheduled task occurs —
the walk terminates only when all published — and no spec carries two
different trees).  Whatever that order was — and the choice of
`num_threads` (0: global pool, 1: inline execution, n > 1: dedicated pool)
influences nothing but that order — the sequence the consumer observes
through the iterator is exactly the strictly sequential depth-first
pre-order walk with the same per-directory ordering.  In particular any two
runs, with any two thread counts, observe the identical sequence. -/
theorem observed_walk_eq_seqWalk (opts : WalkDirOptions) (root : RootInfo)
    (sched : List (ReadDirSpec × FsTree))
    (hfun : ∀ q ∈ sched, ∀ q' ∈ sched, q.1 = q'.1 → q.2 = q'.2)
    (hcov : ∀ p ∈ walkTasks opts root, p ∈ sched) :
    observedWalk opts root sched = seqWalk opts root := by
  unfold observedWalk seqWalk
  congr 1
  by_cases hdir : root.ftype.is_dir = true
  · rw [if_pos hdir, if_pos hdir]
    apply consumeHandoff_eq_aux (sizeOf root.tree) _ _ (Nat.le_refl _)
    intro p hp
    apply publishedOf_eq hfun
    apply hcov
    rw [walkTasks, if_pos hdir]
    exact hp
  · rw [if_neg hdir, if_neg hdir]

/-- C10: cloning `WalkDirOptions` resets `sort` to `None` regardless of the
original value and copies the other five fields from the original. -/
theorem clone_resets_sort_keeps_rest (o : WalkDirOptions) :
    o.clone.sort = none ∧
    o.clone.max_depth = o.max_depth ∧
    o.clone.num_threads = o.num_threads ∧
    o.clone.skip_hidden = o.skip_hidden ∧
    o.clone.preload_metadata = o.preload_metadata ∧
    o.clone.process_entries = o.process_entries :=
  ⟨rfl, rfl, rfl, rfl, rfl, rfl⟩

/-! ## Concrete scenarios: counterexamples and instantiations -/

/-- Timestamp fixture. -/
def m0 : Metadata := { accessed := 0, created := 0, modified := 0 }

/-- A one-file directory used to refute the unconditional depth bound. -/
def c3root : RootInfo :=
  { path := [OsStr.utf8 "r"], ftype := .dir
    tree := .dir [.entry (OsStr.utf8 "a") (.ok .file) (.ok m0) (.failDir 1)] }

/-- Options with `max_depth 0` configured through the builder. -/
def c3opts : WalkDirOptions := ((WalkDir.new [OsStr.utf8 "r"]).max_depth 0).options

/-- The depth-1 entry the walk emits despite `max_depth = 0`. -/
def c3de : DirEntry :=
  { depth := 1, file_name := OsStr.utf8 "a", file_type := .ok .file
    metadata := none
    parent_spec := some { path := [OsStr.utf8 "r"], depth := 0, state := none }
    children_spec := none }

/-- C3 (counterexample): with `max_depth = 0` the walk of a one-file root
directory still emits the file at depth 1 > 0 = `max_depth` — the cap never
reaches the engine, so the root directory is always read. -/
theorem max_depth_zero_emits_depth_one :
    c3opts.max_depth = 0 ∧ Except.ok c3de ∈ seqWalk c3opts c3root ∧ c3de.depth = 1 := by
  refine ⟨rfl, ?_, rfl⟩
  have hw : seqWalk c3opts c3root = [.ok (rootEntry c3root), .ok c3de] := by
    simp [seqWalk, walkDirTree, dirEntryResults, dirEntryResultsRaw, c3opts, c3root,
      WalkDir.new, WalkDir.max_depth, rootSpec, rootEntry, is_hidden, OsStr.to_str,
      startsWithDot, FileType.is_dir, USIZE_MAX, c3de]
  rw [hw]
  simp

/-- The hidden-named entry a user transform injects. -/
def c4hidden : DirEntry :=
  { depth := 1, file_name := OsStr.utf8 ".sneaky", file_type := .ok .file
    metadata := none, parent_spec := none, children_spec := none }

/-- Options: `skip_hidden` left at its default `true`, with a transform that
appends `c4hidden` to every directory's vector. -/
def c4opts : WalkDirOptions :=
  ((WalkDir.new [OsStr.utf8 "r"]).process_entries
    (fun rs => rs ++ [.ok c4hidden])).options

/-- An empty root directory. -/
def c4root : RootInfo :=
  { path := [OsStr.utf8 "r"], ftype := .dir, tree := .dir [] }

/-- C4 (counterexample): the hidden filter runs before the user transform,
so a transform can re-introduce an entry whose name begins with `.`; the
walk then emits it even though `skip_hidden` is enabled. -/
theorem transform_can_emit_hidden_name :
    c4opts.skip_hidden = true ∧
    Except.ok c4hidden ∈ seqWalk c4opts c4root ∧
    is_hidden c4hidden.file_name = true := by
  refine ⟨rfl, ?_, by decide⟩
  have hw : seqWalk c4opts c4root = [.ok (rootEntry c4root), .ok c4hidden] := by
    simp [seqWalk, walkDirTree, dirEntryResults, dirEntryResultsRaw, c4opts, c4root,
      WalkDir.new, WalkDir.process_entries, rootSpec, rootEntry, FileType.is_dir,
      c4hidden]
  rw [hw]
  simp

/-! ### A shared concrete walk used by the witnesses -/

/-- Root listing: a hidden file, a plain file, and a file whose OS-level
name is not valid UTF-8 and begins with a `.` byte (46). -/
def witems : List RawItem :=
  [.entry (OsStr.utf8 ".h") (.ok .file) (.ok m0) (.failDir 9),
   .entry (OsStr.utf8 "a") (.ok .file) (.ok m0) (.failDir 9),
   .entry (OsStr.bytes [46, 200]) (.ok .file) (.ok m0) (.failDir 9)]

def wtree : FsTree := .dir witems

def wroot : RootInfo := { path := [OsStr.utf8 "r"], ftype := .dir, tree := wtree }

/-- Default options (`skip_hidden = true`, no sort, no transform). -/
def wopts : WalkDirOptions := (WalkDir.new [OsStr.utf8 "r"]).options

def wspec0 : ReadDirSpec := { path := [OsStr.utf8 "r"], depth := 0, state := none }

def wdeA : DirEntry :=
  { depth := 1, file_name := OsStr.utf8 "a", file_type := .ok .file
    metadata := none, parent_spec := some wspec0, children_spec := none }

def wdeB : DirEntry :=
  { depth := 1, file_name := OsStr.bytes [46, 200], file_type := .ok .file
    metadata := none, parent_spec := some wspec0, children_spec := none }

theorem wwalk_eq :
    seqWalk wopts wroot = [.ok (rootEntry wroot), .ok wdeA, .ok wdeB] := by
  simp [seqWalk, walkDirTree, dirEntryResults, dirEntryResultsRaw, wopts, wroot,
    wtree, witems, WalkDir.new, rootSpec, rootEntry, is_hidden, OsStr.to_str,
    startsWithDot, FileType.is_dir, USIZE_MAX, wdeA, wdeB, wspec0]

theorem wdeA_mem : Except.ok wdeA ∈ seqWalk wopts wroot := by
  rw [wwalk_eq]; simp

theorem wdeA_mem_tail : Except.ok wdeA ∈ (seqWalk wopts wroot).tail := by
  rw [wwalk_eq]; simp

/-- C3 (witness): the amended depth bound applied to the concrete walk. -/
theorem emitted_depth_bounded_witness : wdeA.depth ≤ wopts.max_depth :=
  (@emitted_depth_bounded wopts wroot wdeA rfl wdeA_mem).2 (by decide)

/-- C4 (witness): the amended hidden-name guarantee applied to the concrete
walk. -/
theorem skip_hidden_drops_hidden_names_witness :
    is_hidden wdeA.file_name = false :=
  (@skip_hidden_drops_hidden_names wopts wroot rfl).2 rfl wdeA wdeA_mem_tail

/-- C7 (witness): parent/depth relation of the concrete emitted entry. -/
theorem depth_is_parent_depth_plus_one_witness :
    ∃ ps, wdeA.parent_spec = some ps ∧ wdeA.depth = ps.depth + 1 :=
  (@depth_is_parent_depth_plus_one wopts wroot rfl).2.2.2
    wdeA wdeA_mem_tail

/-- C9 (witness): the non-UTF-8 dot-named entry is kept and emitted. -/
theorem non_utf8_name_not_hidden_witness :
    is_hidden (OsStr.bytes [46, 200]) = false ∧
    ∃ de, de.file_name = OsStr.bytes [46, 200] ∧
      Except.ok de ∈ dirEntryResults wopts wspec0 witems ∧
      Except.ok de ∈ walkDirTree wopts wspec0 (.dir witems) := by
  have hmem : RawItem.entry (OsStr.bytes [46, 200]) (.ok .file) (.ok m0)
      (.failDir 9) ∈ witems := by
    rw [witems]
    exact List.mem_cons_of_mem _ (List.mem_cons_of_mem _ (List.mem_cons_self _ _))
  have h := @non_utf8_name_not_hidden wopts wspec0 witems [46, 200]
    (.ok .file) (.ok m0) (.failDir 9) rfl hmem
  exact ⟨h.1 [46, 200], h.2⟩

/-! ### Concrete schedule for the ordering contract -/

def c1sub : FsTree := .dir []

def c1items : List RawItem :=
  [.entry (OsStr.utf8 "d") (.ok .dir) (.ok m0) c1sub]

def c1root : RootInfo :=
  { path := [OsStr.utf8 "r"], ftype := .dir, tree := .dir c1items }

def c1spec0 : ReadDirSpec := { path := [OsStr.utf8 "r"], depth := 0, state := none }

def c1spec1 : ReadDirSpec :=
  { path := [OsStr.utf8 "r", OsStr.utf8 "d"], depth := 1, state := none }

/-- A completion order in which the child task finished before the root
task. -/
def c1sched : List (ReadDirSpec × FsTree) :=
  [(c1spec1, c1sub), (c1spec0, .dir c1items)]

/-- C1 (witness): with the child task completing before the root task, the
observed sequence still equals the sequential depth-first walk. -/
theorem observed_walk_eq_seqWalk_witness :
    observedWalk wopts c1root c1sched = seqWalk wopts c1root := by
  apply observed_walk_eq_seqWalk
  · intro q hq q' hq' h
    simp only [c1sched, List.mem_cons, List.not_mem_nil, or_false,
      List.mem_singleton] at hq hq'
    rcases hq with rfl | rfl <;> rcases hq' with rfl | rfl
    · rfl
    · exact absurd h (by decide)
    · exact absurd h (by decide)
    · rfl
  · intro p hp
    have hw : walkTasks wopts c1root =
        [(c1spec0, FsTree.dir c1items), (c1spec1, c1sub)] := by
      simp [walkTasks, scheduledTasks, dirEntryResults, dirEntryResultsRaw, wopts,
        c1root, c1items, c1sub, WalkDir.new, rootSpec, is_hidden, OsStr.to_str,
        startsWithDot, FileType.is_dir, USIZE_MAX, lookupChild, specFileName,
        c1spec0, c1spec1]
    rw [hw] at hp
    rcases List.mem_cons.mp hp with rfl | hp2
    · simp [c1sched]
    · rcases List.mem_singleton.mp hp2 with rfl
      simp [c1sched]

/-! ### Concrete scenario for the failing directory read -/

def c8sub : FsTree := .failDir 7

def c8items : List RawItem :=
  [.entry (OsStr.utf8 "a") (.ok .file) (.ok m0) (.failDir 9),
   .entry (OsStr.utf8 "bad") (.ok .dir) (.ok m0) c8sub,
   .entry (OsStr.utf8 "c") (.ok .file) (.ok m0) (.failDir 9)]

def c8spec : ReadDirSpec := { path := [OsStr.utf8 "p"], depth := 0, state := none }

def c8csp : ReadDirSpec :=
  { path := [OsStr.utf8 "p", OsStr.utf8 "bad"], depth := 1, state := none }

def c8deA : DirEntry :=
  { depth := 1, file_name := OsStr.utf8 "a", file_type := .ok .file
    metadata := none, parent_spec := some c8spec, children_spec := none }

def c8deBad : DirEntry :=
  { depth := 1, file_name := OsStr.utf8 "bad", file_type := .ok .dir
    metadata := none, parent_spec := some c8spec, children_spec := some c8csp }

def c8deC : DirEntry :=
  { depth := 1, file_name := OsStr.utf8 "c", file_type := .ok .file
    metadata := none, parent_spec := some c8spec, children_spec := none }

/-- C8 (witness): the isolation of a failing directory read, in a directory
listing `a`, `bad` (whose read fails with error 7) and `c`. -/
theorem failed_read_dir_isolated_witness :
    walkDirTree wopts c8csp (.failDir 7) = [Except.error 7] ∧
    scheduledTasks wopts c8csp (.failDir 7) = [(c8csp, FsTree.failDir 7)] ∧
    readDirResult wopts c8csp (.failDir 7) = Except.error 7 ∧
    ∃ l1 l2, walkDirTree wopts c8spec (.dir c8items) =
        l1 ++ Except.ok c8deBad :: Except.error 7 :: l2 ∧
      Except.ok c8deC ∈ l2 := by
  have hsplit : dirEntryResults wopts c8spec c8items =
      [Except.ok c8deA] ++ Except.ok c8deBad :: [Except.ok c8deC] := by
    simp [dirEntryResults, dirEntryResultsRaw, wopts, c8items, WalkDir.new,
      is_hidden, OsStr.to_str, startsWithDot, FileType.is_dir, USIZE_MAX,
      c8deA, c8deBad, c8deC, c8spec, c8csp]
  have hlk : lookupChild c8items (specFileName c8csp) = some (.failDir 7) := by
    simp [lookupChild, specFileName, c8items, c8csp, c8sub]
  have h := failed_read_dir_isolated wopts c8spec 7 c8items [Except.ok c8deA]
    [Except.ok c8deC] c8deBad c8csp hsplit rfl hlk
  refine ⟨h.1, h.2.1, h.2.2.1, ?_⟩
  rcases h.2.2.2 with ⟨l1, l2, heq, hmem⟩
  exact ⟨l1, l2, heq, hmem _ (List.mem_singleton.mpr rfl)⟩

/-- Options with `sort = name` configured through the builder. -/
def sopts : WalkDirOptions :=
  ((WalkDir.new [OsStr.utf8 "r"]).sort (some SortKey.Name)).options

/-- C2 (witness): the published-vector conjunct applied at a concrete
name-sorted configuration. -/
theorem sort_name_orders_directory_witness :
    (dirEntryResults sopts wspec0 witems).Pairwise nameSortedAfter :=
  (sort_name_orders_directory []).2.2 sopts wspec0 witems rfl rfl

/-- An entry a user transform injects with fabricated depth and no parent. -/
def c7bogus : DirEntry :=
  { depth := 5, file_name := OsStr.utf8 "ghost", file_type := .ok .file
    metadata := none, parent_spec := none, children_spec := none }

/-- Options whose transform appends `c7bogus` to every directory vector. -/
def c7opts : WalkDirOptions :=
  ((WalkDir.new [OsStr.utf8 "r"]).process_entries
    (fun rs => rs ++ [.ok c7bogus])).options

/-- An empty root directory. -/
def c7root : RootInfo :=
  { path := [OsStr.utf8 "r"], ftype := .dir, tree := .dir [] }

/-- C7 (counterexample): a user transform can emit a non-root entry that
carries no parent spec at all (and an arbitrary depth), so the claimed
relation `depth(e) = depth(parent(e)) + 1` does not hold of every non-root
emitted entry. -/
theorem transform_can_emit_orphan_entry :
    Except.ok c7bogus ∈ (seqWalk c7opts c7root).tail ∧
    c7bogus.parent_spec = none ∧
    c7bogus.depth = 5 := by
  refine ⟨?_, rfl, rfl⟩
  have hw : seqWalk c7opts c7root = [.ok (rootEntry c7root), .ok c7bogus] := by
    simp [seqWalk, walkDirTree, dirEntryResults, dirEntryResultsRaw, c7opts, c7root,
      WalkDir.new, WalkDir.process_entries, rootSpec, rootEntry, FileType.is_dir,
      c7bogus]
  rw [hw]
  simp

end Jwalk
